import Mathlib

/-!
Shallow embedding of `shenfun/chebyshev/bases.py` (Chebyshev spectral
Galerkin bases): quadrature points and weights, the fast-transform
scalar products, inverse-mass scaling, Shen basis recombination,
planning protocol, and point evaluation.

Arrays are modelled as `List ℝ` along the (one) transform axis, machine
floats as exact reals, and the external pyfftw DCT provider by the
documented FFTW definitions of REDFT10 (DCT-II), REDFT00 (DCT-I).
Python exceptions are modelled with `Except String`.
-/

open Real

noncomputable section

/-- The two Chebyshev quadrature rules: `GC` (Chebyshev-Gauss) and
`GL` (Chebyshev-Gauss-Lobatto), the two values the `quad` argument may
take in `ChebyshevBase.__init__`. -/
inductive Quad
  | GC
  | GL
  deriving DecidableEq

/-- FFTW REDFT10 (DCT-II), the raw forward transform bound by
`Basis.__init__` for `quad == 'GC'` (`pyfftw.builders.dct, type=2`):
`X_k = 2 * sum_j x_j cos(pi (2j+1) k / (2N))`. -/
def dct2 (x : List ℝ) : List ℝ :=
  (List.range x.length).map fun (k : ℕ) =>
    2 * ∑ j ∈ Finset.range x.length,
      x.getD j 0 * Real.cos (Real.pi * (2 * (j : ℝ) + 1) * (k : ℝ) / (2 * (x.length : ℝ)))

/-- FFTW REDFT00 (DCT-I), the raw transform bound by `Basis.__init__`
for `quad == 'GL'` (`pyfftw.builders.dct, type=1`):
`X_k = x_0 + (-1)^k x_{N-1} + 2 * sum_{j=1}^{N-2} x_j cos(pi j k / (N-1))`. -/
def dct1 (x : List ℝ) : List ℝ :=
  (List.range x.length).map fun (k : ℕ) =>
    x.getD 0 0 + (-1 : ℝ) ^ k * x.getD (x.length - 1) 0 +
      2 * ∑ j ∈ Finset.Ico 1 (x.length - 1),
        x.getD j 0 * Real.cos (Real.pi * (j : ℝ) * (k : ℝ) / ((x.length : ℝ) - 1))

/-- Bookkeeping weight of the Gauss-Lobatto inverse-mass halvings
(`M = N - 1`): `1/2` at `k = 0`, `1/2` at `k = M`, else `1`. -/
def glWeight (M k : ℕ) : ℝ := (if k = 0 then 1 / 2 else 1) * (if k = M then 1 / 2 else 1)

/-- Bookkeeping end-point factor of the assembled DCT-I cosine sum:
`1` at the two ends `i = 0`, `i = M`, else `2`. -/
def glGamma (M i : ℕ) : ℝ := if i = 0 ∨ i = M then 1 else 2

/-- FFTW REDFT01 (DCT-III), the raw backward transform bound by
`Basis.__init__` for `quad == 'GC'` (`pyfftw.builders.dct, type=3`):
`Y_j = X_0 + 2 * sum_(k=1)^(N-1) X_k cos(pi (2j+1) k / (2N))`. -/
def dct3 (x : List ℝ) : List ℝ :=
  (List.range x.length).map fun (j : ℕ) =>
    x.getD 0 0 + 2 * ∑ k ∈ Finset.Ico 1 x.length,
      x.getD k 0 * Real.cos (Real.pi * (2 * (j : ℝ) + 1) * (k : ℝ) / (2 * (x.length : ℝ)))

/-- The raw provider forward transform `self.xfftn_fwd()` of the plain
`Basis`: DCT-II for Gauss points, DCT-I for Gauss-Lobatto points. -/
def rawForward (q : Quad) (x : List ℝ) : List ℝ :=
  match q with
  | Quad.GC => dct2 x
  | Quad.GL => dct1 x

/-- `Basis.scalar_product` on the fast path (`fast_transform=True`):
`out = self.xfftn_fwd()`, then `out *= pi/(2*N)` for `quad == 'GC'`
and `out *= pi/(2*(N-1))` for `quad == 'GL'`, where `N` is asserted to
equal the input length along the transform axis. -/
def scalar_product_fast (q : Quad) (x : List ℝ) : List ℝ :=
  match q with
  | Quad.GC => (dct2 x).map fun y => y * (Real.pi / (2 * (x.length : ℝ)))
  | Quad.GL => (dct1 x).map fun y => y * (Real.pi / (2 * ((x.length : ℝ) - 1)))

/-- `Basis.evaluate_expansion_all(input, output)`: the provider backward
transform (`self.xfftn_bck()`, DCT-III for Gauss and DCT-I for
Gauss-Lobatto), halved, plus the quadrature-dependent boundary
corrections: `output += input[0]/2` for both rules; for Gauss-Lobatto
additionally `output[0::2] += input[-1]/2` and
`output[1::2] -= input[-1]/2`. -/
def evaluate_expansion_all (q : Quad) (c : List ℝ) : List ℝ :=
  match q with
  | Quad.GC => (dct3 c).map fun y => y * 0.5 + c.getD 0 0 / 2
  | Quad.GL =>
      (List.range c.length).map fun (j : ℕ) =>
        ((dct1 c).getD j 0 * 0.5 + c.getD 0 0 / 2) +
          (if j % 2 = 0 then c.getD (c.length - 1) 0 / 2
           else -(c.getD (c.length - 1) 0 / 2))

/-- `ChebyshevBase.points_and_weights(N, scaled)`.  For `'GL'` the points
are `-(numpy chebpts2(N))` (numpy raises `ValueError` when `N < 2`) and
the weights are `pi/(N-1)` with first and last halved; for `'GC'` the
points and weights come from `numpy.polynomial.chebyshev.chebgauss(N)`
(which raises `ValueError` only when `N = 0`): points
`cos(pi (2j+1)/(2N))` and uniform weights `pi/N`.  When `scaled` is true
the points are affinely mapped onto the domain `[a, b]`. -/
def points_and_weights (q : Quad) (domain : ℝ × ℝ) (N : ℕ) (scaled : Bool) :
    Except String (List ℝ × List ℝ) :=
  match q with
  | Quad.GL =>
      if N < 2 then Except.error "ValueError: npts must be at least 2"
      else
        let pts := (List.range N).map fun (k : ℕ) =>
          -(Real.cos (-Real.pi + Real.pi * (k : ℝ) / ((N : ℝ) - 1)))
        let w := Real.pi / ((N : ℝ) - 1)
        let weights := (List.range N).map fun j => if j = 0 ∨ j = N - 1 then w / 2 else w
        let points := if scaled then
          pts.map fun x => domain.1 + (domain.2 - domain.1) / 2 + x * (domain.2 - domain.1) / 2
          else pts
        Except.ok (points, weights)
  | Quad.GC =>
      if N = 0 then Except.error "ValueError: deg must be a positive integer"
      else
        let pts := (List.range N).map fun (j : ℕ) =>
          Real.cos (Real.pi * (2 * (j : ℝ) + 1) / (2 * (N : ℝ)))
        let weights := List.replicate N (Real.pi / (N : ℝ))
        let points := if scaled then
          pts.map fun x => domain.1 + (domain.2 - domain.1) / 2 + x * (domain.2 - domain.1) / 2
          else pts
        Except.ok (points, weights)

/-- Modelled from the spec: `SpectralBase.__init__`
(`shenfun/spectralbase.py`, not under `src/`) — per §3 "a Basis is
constructed with configuration only", it stores `N`, `quad` and
`domain` without further validation. -/
structure SpectralBaseState where
  N : ℕ
  quad : Quad
  domain : ℝ × ℝ

/-- `ChebyshevBase.__init__(N, quad, domain)`: `assert quad in ('GC', 'GL')`
(an `AssertionError` for any other name), then delegates to
`SpectralBase.__init__`, which stores the configuration.  No bound on
`N` and no check of the domain is made. -/
def chebyshevBase_init (N : ℕ) (quad : String) (domain : ℝ × ℝ) :
    Except String SpectralBaseState :=
  if quad = "GC" then Except.ok ⟨N, Quad.GC, domain⟩
  else if quad = "GL" then Except.ok ⟨N, Quad.GL, domain⟩
  else Except.error "AssertionError"

/-- The quadrature-independent first two steps of
`Basis.apply_inverse_mass(array)`: `array *= 2/pi`, then `array[0] /= 2`. -/
def scale_and_halve_first (a : List ℝ) : List ℝ :=
  (a.map fun y => y * (2 / Real.pi)).set 0 ((a.map fun y => y * (2 / Real.pi)).getD 0 0 / 2)

/-- `Basis.apply_inverse_mass(array)`: `array *= 2/pi`, then
`array[0] /= 2`, and for `quad == 'GL'` also `array[-1] /= 2`. -/
def apply_inverse_mass (q : Quad) (a : List ℝ) : List ℝ :=
  match q with
  | Quad.GC => scale_and_halve_first a
  | Quad.GL =>
      (scale_and_halve_first a).set ((scale_and_halve_first a).length - 1)
        ((scale_and_halve_first a).getD ((scale_and_halve_first a).length - 1) 0 / 2)

/-- One row (the values of `T_0 .. T_{N-1}` at one quadrature point) of
`ShenDirichletBasis.get_vandermonde_basis(V)`:
`P[:, :-2] = V[:, :-2] - V[:, 2:]` (slices become `take`/`drop`, the
elementwise subtraction `zipWith`), then the two boundary columns
`P[:, -2] = (V[:, 0] + V[:, 1])/2` and `P[:, -1] = (V[:, 0] - V[:, 1])/2`. -/
def get_vandermonde_basis_dirichlet (V : List ℝ) : List ℝ :=
  List.zipWith (fun a b => a - b) (V.take (V.length - 2)) (V.drop 2)
    ++ [(V.getD 0 0 + V.getD 1 0) / 2, (V.getD 0 0 - V.getD 1 0) / 2]

/-- The Neumann factor array `self._factor = (k/(k+2))**2` set by
`ShenNeumannBasis.set_factor_array` (wavenumber `k` indexes the
first `N - 2` modes). -/
def neumann_factor (k : ℕ) : ℝ := ((k : ℝ) / ((k : ℝ) + 2)) ^ 2

/-- `ShenNeumannBasis.scalar_product` on the fast path: the plain
`CT.scalar_product`, then `fk[:-2] -= self._factor * fk[2:]`, then the
unconditional overwrites `fk[0] = self.mean*np.pi` and `fk[-2:] = 0`. -/
def neumann_scalar_product (q : Quad) (mean : ℝ) (u : List ℝ) : List ℝ :=
  let fk := scalar_product_fast q u
  let n := fk.length
  let fk1 := (List.range n).map fun k =>
    if k < n - 2 then fk.getD k 0 - neumann_factor k * fk.getD (k + 2) 0 else fk.getD k 0
  let fk2 := fk1.set 0 (mean * Real.pi)
  (List.range n).map fun k => if n - 2 ≤ k then 0 else fk2.getD k 0

/-- `self._factor1 = -2*(k+2)/(k+3)` of `ShenBiharmonicBasis.set_factor_arrays`. -/
def biharm_factor1 (k : ℕ) : ℝ := -2 * ((k : ℝ) + 2) / ((k : ℝ) + 3)

/-- `self._factor2 = (k+1)/(k+3)` of `ShenBiharmonicBasis.set_factor_arrays`. -/
def biharm_factor2 (k : ℕ) : ℝ := ((k : ℝ) + 1) / ((k : ℝ) + 3)

/-- `ShenBiharmonicBasis.scalar_product` on the fast path: the plain
`CT.scalar_product` copied to `Tk`, then
`output[:-4] += factor1 * Tk[2:-2] + factor2 * Tk[4:]`, then the
unconditional `output[-4:] = 0`. -/
def biharmonic_scalar_product (q : Quad) (u : List ℝ) : List ℝ :=
  let Tk := scalar_product_fast q u
  let n := Tk.length
  let out1 := (List.range n).map fun k =>
    if k < n - 4 then
      Tk.getD k 0 + biharm_factor1 k * Tk.getD (k + 2) 0 + biharm_factor2 k * Tk.getD (k + 4) 0
    else Tk.getD k 0
  (List.range n).map fun k => if n - 4 ≤ k then 0 else out1.getD k 0

/-- Chebyshev polynomials of the first kind by the three-term
recurrence, the polynomials whose coefficient-series
`numpy.polynomial.chebyshev.chebval` evaluates. -/
def chebT : ℕ → ℝ → ℝ
  | 0, _ => 1
  | 1, x => x
  | n + 2, x => 2 * x * chebT (n + 1) x - chebT n x

/-- `numpy.polynomial.chebyshev.chebval(x, c) = sum_k c_k T_k(x)`. -/
def chebval (x : ℝ) (c : List ℝ) : ℝ :=
  ∑ k ∈ Finset.range c.length, c.getD k 0 * chebT k x

/-- `ShenDirichletBasis.eval(x, fk)`:
`output = chebval(x, fk[:-2])`, `w_hat[2:] = fk[:-2]`,
`output -= chebval(x, w_hat)`,
`output += 0.5*(fk[-1]*(1+x) + fk[-2]*(1-x))`.
Modelled from the spec: the scratch array `work[(fk, 0)]`
(`shenfun.spectralbase.work`, not under `src/`) is zero-initialised, so
`w_hat` is `fk[:-2]` shifted up by two with zeros in front — §4.5
reconstructs the underlying Chebyshev coefficients "via the same banded
combination" with no stray terms. -/
def dirichlet_eval (x : ℝ) (fk : List ℝ) : ℝ :=
  let head := fk.take (fk.length - 2)
  let out1 := chebval x head
  let w_hat := [0, 0] ++ head
  let out2 := out1 - chebval x w_hat
  out2 + 0.5 * (fk.getD (fk.length - 1) 0 * (1 + x) + fk.getD (fk.length - 2) 0 * (1 - x))

/-- A `_func_wrap` binding produced by `plan`: the bound callable
remembers the planned shape and the identities of the shared input and
output buffers (identities modelled as allocation numbers). -/
structure FuncWrap where
  shape : List ℕ
  inputBuf : ℕ
  outputBuf : ℕ
  deriving DecidableEq

/-- The planning-relevant state of a `Basis`: `self.axis`, the three
bound operations (`none` while they are still unbound methods, `some`
once `plan` has wrapped them in `_func_wrap`), and an allocation
counter standing for the pyfftw allocator (each fresh buffer gets the
next number, so buffer identity is preserved exactly when the numbers
are). -/
structure BasisState where
  axis : ℕ
  forward : Option FuncWrap
  backward : Option FuncWrap
  scalarProduct : Option FuncWrap
  counter : ℕ
  deriving DecidableEq

/-- The allocation path of `ChebyshevBase.plan`: allocate `U` aligned,
build the forward transform (producing `V`), rebind both transforms to
the shared pair, and for a non-real dtype allocate a further complex
`U`, `V` pair wrapped by `_dct_wrap`.  The three bound operations share
the final buffer pair. -/
def chebAlloc (s : BasisState) (shape : List ℕ) (axis : ℕ) (isReal : Bool) : BasisState :=
  if isReal then
    { axis := axis
      forward := some ⟨shape, s.counter, s.counter + 1⟩
      backward := some ⟨shape, s.counter + 1, s.counter⟩
      scalarProduct := some ⟨shape, s.counter, s.counter + 1⟩
      counter := s.counter + 2 }
  else
    { axis := axis
      forward := some ⟨shape, s.counter + 2, s.counter + 3⟩
      backward := some ⟨shape, s.counter + 3, s.counter + 2⟩
      scalarProduct := some ⟨shape, s.counter + 2, s.counter + 3⟩
      counter := s.counter + 4 }

/-- `ChebyshevBase.plan(shape, axis, dtype, options)`: a no-op when
`self.forward` is already a `_func_wrap` whose `input_array.shape`
equals `shape` and `self.axis` equals `axis`; otherwise it allocates
and rebinds.  The check ignores `dtype` and `options`, exactly as the
code does. -/
def chebPlan (s : BasisState) (shape : List ℕ) (axis : ℕ) (isReal : Bool)
    (_options : List (String × String)) : BasisState :=
  match s.forward with
  | some fw => if fw.shape = shape ∧ s.axis = axis then s else chebAlloc s shape axis isReal
  | none => chebAlloc s shape axis isReal

/-- The planning-relevant state of a Shen basis: its own three bound
operations plus the wrapped plain basis `self.CT`. -/
structure ShenPlanState where
  axis : ℕ
  forward : Option FuncWrap
  backward : Option FuncWrap
  scalarProduct : Option FuncWrap
  CT : BasisState
  deriving DecidableEq

/-- The delegation path of `ShenDirichletBasis.plan`: plan the wrapped
plain basis, then rebind the Shen basis's own wrappers to the plain
basis's shared buffer pair (`U = CT.xfftn_fwd.input_array`,
`V = CT.xfftn_fwd.output_array`). -/
def shenDoPlan (s : ShenPlanState) (shape : List ℕ) (axis : ℕ) (isReal : Bool)
    (options : List (String × String)) : ShenPlanState :=
  let ct := chebPlan s.CT shape axis isReal options
  let U := match ct.forward with | some fw => fw.inputBuf | none => 0
  let V := match ct.forward with | some fw => fw.outputBuf | none => 0
  { axis := ct.axis
    forward := some ⟨shape, U, V⟩
    backward := some ⟨shape, V, U⟩
    scalarProduct := some ⟨shape, U, V⟩
    CT := ct }

/-- `ShenDirichletBasis.plan(shape, axis, dtype, options)` (the same
shape/axis no-op guard precedes the delegation, as in
`ChebyshevBase.plan`). -/
def shenPlan (s : ShenPlanState) (shape : List ℕ) (axis : ℕ) (isReal : Bool)
    (options : List (String × String)) : ShenPlanState :=
  match s.forward with
  | some fw =>
      if fw.shape = shape ∧ s.axis = axis then s else shenDoPlan s shape axis isReal options
  | none => shenDoPlan s shape axis isReal options

/-- The construction state of `ShenDirichletBasis.__init__(N, quad, bc,
plan, domain, scaled)`: the configuration it stores, including the
`scaled` argument kept as `self._scaled`. -/
structure ShenDirichletBasis where
  N : ℕ
  quad : Quad
  bc : ℝ × ℝ
  domain : ℝ × ℝ
  scaled : Bool

/-- `ShenDirichletBasis.is_scaled`: the body is literally `return False`. -/
def ShenDirichletBasis.is_scaled (_b : ShenDirichletBasis) : Bool := false

end

noncomputable section

/-! ## Helper lemmas -/

/-- `getD` of an in-range index is `getElem`. -/
theorem getD_lt {α : Type} [Inhabited α] (l : List α) (k : ℕ) (h : k < l.length) :
    l.getD k default = l.get ⟨k, h⟩ := by
  simp [List.getD_eq_getElem?_getD, List.getElem?_eq_getElem h]

/-- `getD` over a map of `List.range`. -/
theorem getD_range_map (f : ℕ → ℝ) (n k : ℕ) (h : k < n) :
    ((List.range n).map f).getD k 0 = f k := by
  rw [List.getD_eq_getElem?_getD,
    List.getElem?_eq_getElem (by simpa using h)]
  simp

/-- `getD` over an elementwise map, in range. -/
theorem getD_map_lt (f : ℝ → ℝ) (l : List ℝ) (k : ℕ) (h : k < l.length) :
    (l.map f).getD k 0 = f (l.getD k 0) := by
  rw [List.getD_eq_getElem?_getD, List.getElem?_eq_getElem (by simpa using h),
    List.getD_eq_getElem?_getD, List.getElem?_eq_getElem h]
  simp

/-- `getD` after `set` at the written index. -/
theorem getD_set_self (l : List ℝ) (i : ℕ) (v : ℝ) (h : i < l.length) :
    (l.set i v).getD i 0 = v := by
  rw [List.getD_eq_getElem?_getD, List.getElem?_set_self h]
  rfl

/-- `getD` after `set` at another index. -/
theorem getD_set_ne (l : List ℝ) (i j : ℕ) (v : ℝ) (h : i ≠ j) :
    (l.set i v).getD j 0 = l.getD j 0 := by
  rw [List.getD_eq_getElem?_getD, List.getElem?_set_ne h, ← List.getD_eq_getElem?_getD]

/-- `getD` over `drop`, in range. -/
theorem getD_drop (l : List ℝ) (n k : ℕ) (h : n + k < l.length) :
    (l.drop n).getD k 0 = l.getD (n + k) 0 := by
  induction n generalizing l with
  | zero => simp
  | succ m ih =>
    cases l with
    | nil => simp at h
    | cons a t =>
      have hlen : m + k < t.length := by simp at h; omega
      have := ih t hlen
      rw [List.drop_succ_cons, this]
      have heq : (m + 1) + k = (m + k) + 1 := by omega
      rw [heq]
      simp

/-- `getD` over `take`, below the cut. -/
theorem getD_take (l : List ℝ) (n k : ℕ) (h : k < n) :
    (l.take n).getD k 0 = l.getD k 0 := by
  rw [List.getD_eq_getElem?_getD, List.getElem?_take_of_lt h, ← List.getD_eq_getElem?_getD]

/-- `getD` over an append, inside the left part. -/
theorem getD_append_left (l1 l2 : List ℝ) (k : ℕ) (h : k < l1.length) :
    (l1 ++ l2).getD k 0 = l1.getD k 0 := by
  rw [List.getD_eq_getElem?_getD, List.getElem?_append_left h, ← List.getD_eq_getElem?_getD]

/-- `getD` over an append, inside the right part. -/
theorem getD_append_right (l1 l2 : List ℝ) (k : ℕ) (h : l1.length ≤ k) :
    (l1 ++ l2).getD k 0 = l2.getD (k - l1.length) 0 := by
  rw [List.getD_eq_getElem?_getD, List.getElem?_append_right h, ← List.getD_eq_getElem?_getD]

/-- `getD` over an elementwise `zipWith` subtraction, in range. -/
theorem getD_zipWith_sub (l1 l2 : List ℝ) (k : ℕ) (h1 : k < l1.length) (h2 : k < l2.length) :
    (List.zipWith (fun a b => a - b) l1 l2).getD k 0 = l1.getD k 0 - l2.getD k 0 := by
  rw [List.getD_eq_getElem?_getD, List.getElem?_zipWith,
    List.getElem?_eq_getElem h1, List.getElem?_eq_getElem h2,
    List.getD_eq_getElem?_getD, List.getD_eq_getElem?_getD,
    List.getElem?_eq_getElem h1, List.getElem?_eq_getElem h2]
  rfl

/-- `chebAlloc` sets the planned axis. -/
theorem chebAlloc_axis (s : BasisState) (shape : List ℕ) (axis : ℕ) (isReal : Bool) :
    (chebAlloc s shape axis isReal).axis = axis := by
  cases isReal <;> simp [chebAlloc]

/-- `chebAlloc` binds `forward` to a wrapper carrying the planned shape. -/
theorem chebAlloc_forward (s : BasisState) (shape : List ℕ) (axis : ℕ) (isReal : Bool) :
    ∃ U V, (chebAlloc s shape axis isReal).forward = some ⟨shape, U, V⟩ := by
  cases isReal <;> exact ⟨_, _, rfl⟩

/-- After `chebPlan`, `self.forward` is a `_func_wrap` whose shape is the
planned shape and `self.axis` is the planned axis. -/
theorem chebPlan_planned (s : BasisState) (shape : List ℕ) (axis : ℕ) (isReal : Bool)
    (options : List (String × String)) :
    ∃ fw, (chebPlan s shape axis isReal options).forward = some fw ∧ fw.shape = shape ∧
      (chebPlan s shape axis isReal options).axis = axis := by
  rw [chebPlan]
  split
  · split
    · next h => next fw hf => exact ⟨fw, hf, h.1, h.2⟩
    · obtain ⟨U, V, hUV⟩ := chebAlloc_forward s shape axis isReal
      exact ⟨_, hUV, rfl, chebAlloc_axis s shape axis isReal⟩
  · obtain ⟨U, V, hUV⟩ := chebAlloc_forward s shape axis isReal
    exact ⟨_, hUV, rfl, chebAlloc_axis s shape axis isReal⟩

/-- `chebPlan` is a no-op when the stored shape and axis match. -/
theorem chebPlan_noop (s : BasisState) (shape : List ℕ) (axis : ℕ) (isReal : Bool)
    (options : List (String × String)) (fw : FuncWrap)
    (hf : s.forward = some fw) (h1 : fw.shape = shape) (h2 : s.axis = axis) :
    chebPlan s shape axis isReal options = s := by
  rw [chebPlan, hf]
  show (if fw.shape = shape ∧ s.axis = axis then s else chebAlloc s shape axis isReal) = s
  rw [if_pos ⟨h1, h2⟩]

/-- After `shenPlan`, the Shen basis's own `forward` wrapper carries the
planned shape and `self.axis` is the planned axis. -/
theorem shenPlan_planned (t : ShenPlanState) (shape : List ℕ) (axis : ℕ) (isReal : Bool)
    (options : List (String × String)) :
    ∃ fw, (shenPlan t shape axis isReal options).forward = some fw ∧ fw.shape = shape ∧
      (shenPlan t shape axis isReal options).axis = axis := by
  rw [shenPlan]
  split
  · split
    · next h => next fw hf => exact ⟨fw, hf, h.1, h.2⟩
    · refine ⟨_, rfl, rfl, ?_⟩
      show (chebPlan t.CT shape axis isReal options).axis = axis
      obtain ⟨fw, _, _, hax⟩ := chebPlan_planned t.CT shape axis isReal options
      exact hax
  · refine ⟨_, rfl, rfl, ?_⟩
    show (chebPlan t.CT shape axis isReal options).axis = axis
    obtain ⟨fw, _, _, hax⟩ := chebPlan_planned t.CT shape axis isReal options
    exact hax

/-- `shenPlan` is a no-op when the stored shape and axis match. -/
theorem shenPlan_noop (t : ShenPlanState) (shape : List ℕ) (axis : ℕ) (isReal : Bool)
    (options : List (String × String)) (fw : FuncWrap)
    (hf : t.forward = some fw) (h1 : fw.shape = shape) (h2 : t.axis = axis) :
    shenPlan t shape axis isReal options = t := by
  rw [shenPlan, hf]
  show (if fw.shape = shape ∧ t.axis = axis then t
        else shenDoPlan t shape axis isReal options) = t
  rw [if_pos ⟨h1, h2⟩]

/-! ## Claim theorems -/

/-- **C2** — For every input array of the planned shape (the code asserts
`self.N == input.shape[self.axis]`, so `N` is the input length), the
plain-basis `scalar_product` on the fast path equals the raw provider
forward transform scaled elementwise by exactly `pi/(2N)` when the
quadrature rule is Gauss and by exactly `pi/(2(N-1))` when it is
Gauss-Lobatto. -/
theorem scalar_product_is_scaled_raw_transform (q : Quad) (x : List ℝ) :
    scalar_product_fast q x =
      (rawForward q x).map fun y =>
        y * (if q = Quad.GC then Real.pi / (2 * (x.length : ℝ))
             else Real.pi / (2 * ((x.length : ℝ) - 1))) := by
  cases q <;> simp [scalar_product_fast, rawForward]

/-- Entrywise description of `apply_inverse_mass`: uniform `2/pi`
scaling, extra halving at `k = 0`, and for Gauss-Lobatto at the last
entry. -/
theorem apply_inverse_mass_getD (q : Quad) (a : List ℝ) (k : ℕ) (hk : k < a.length) :
    (apply_inverse_mass q a).getD k 0 =
      a.getD k 0 * (2 / Real.pi) * (if k = 0 then 1 / 2 else 1) *
        (if q = Quad.GL ∧ k = a.length - 1 then 1 / 2 else 1) := by
  have hlen : (scale_and_halve_first a).length = a.length := by
    simp [scale_and_halve_first]
  have hzero : 0 < a.length → (scale_and_halve_first a).getD 0 0 =
      a.getD 0 0 * (2 / Real.pi) / 2 := by
    intro h
    rw [scale_and_halve_first, getD_set_self _ _ _ (by simpa using h), getD_map_lt _ _ _ h]
  have hne : ∀ j, j < a.length → j ≠ 0 → (scale_and_halve_first a).getD j 0 =
      a.getD j 0 * (2 / Real.pi) := by
    intro j hj hj0
    rw [scale_and_halve_first, getD_set_ne _ _ _ _ (fun h => hj0 h.symm),
      getD_map_lt _ _ _ hj]
  cases q
  · rw [if_neg (by simp : ¬(Quad.GC = Quad.GL ∧ k = a.length - 1)), mul_one]
    show (scale_and_halve_first a).getD k 0 = _
    by_cases h0 : k = 0
    · subst h0
      rw [hzero hk, if_pos rfl]
      ring
    · rw [hne k hk h0, if_neg h0, mul_one]
  · have hiff : (if Quad.GL = Quad.GL ∧ k = a.length - 1 then (1 : ℝ) / 2 else 1)
        = (if k = a.length - 1 then (1 : ℝ) / 2 else 1) := by
      by_cases h : k = a.length - 1 <;> simp [h]
    rw [hiff]
    show ((scale_and_halve_first a).set ((scale_and_halve_first a).length - 1)
        ((scale_and_halve_first a).getD ((scale_and_halve_first a).length - 1) 0 / 2)).getD
        k 0 = _
    rw [hlen]
    by_cases hlast : k = a.length - 1
    · subst hlast
      rw [getD_set_self _ _ _ (by rw [hlen]; omega), if_pos rfl]
      by_cases h0 : a.length - 1 = 0
      · rw [h0, hzero (by omega), if_pos rfl]
        ring
      · rw [hne _ (by omega) h0, if_neg h0]
        ring
    · rw [getD_set_ne _ _ _ _ (fun h => hlast h.symm), if_neg hlast, mul_one]
      by_cases h0 : k = 0
      · subst h0
        rw [hzero hk, if_pos rfl]
        ring
      · rw [hne k hk h0, if_neg h0, mul_one]

/-- **C6** — `apply_inverse_mass` multiplies every entry by `2/pi`,
additionally halves the `k = 0` coefficient, and, when the quadrature
rule is Gauss-Lobatto, additionally halves the last coefficient; all
other coefficients are changed by the uniform `2/pi` factor only. -/
theorem apply_inverse_mass_entries (q : Quad) (a : List ℝ) (k : ℕ) (hk : k < a.length) :
    (apply_inverse_mass q a).getD k 0 =
      a.getD k 0 * (2 / Real.pi) * (if k = 0 then 1 / 2 else 1) *
        (if q = Quad.GL ∧ k = a.length - 1 then 1 / 2 else 1) :=
  apply_inverse_mass_getD q a k hk

/-- Witness for C6: the non-first, last entry of a Gauss-Lobatto
two-entry array is scaled by `2/pi` and halved once. -/
theorem apply_inverse_mass_entries_witness :
    (apply_inverse_mass Quad.GL [1, 2]).getD 1 0 = 2 / Real.pi := by
  have h := apply_inverse_mass_entries Quad.GL [1, 2] 1 (by norm_num)
  norm_num at h
  rw [List.getD_eq_getElem?_getD, h]
  ring

/-- The fast-path scalar product preserves the array length. -/
theorem scalar_product_fast_length (q : Quad) (u : List ℝ) :
    (scalar_product_fast q u).length = u.length := by
  cases q <;>
    simp only [scalar_product_fast, dct2, dct1, List.length_map, List.length_range]

/-- **C7** — for every input array, `ShenNeumannBasis.scalar_product` sets
the `k = 0` output coefficient to `mean * pi` and zeroes the last two
output slots, and `ShenBiharmonicBasis.scalar_product` zeroes the last
four output slots.  (Stated for arrays long enough that the overwritten
slots are distinct, as they are for every valid basis: `N >= 4` for
Neumann, `N >= 6` for Biharmonic.) -/
theorem shen_scalar_product_boundary_slots (q : Quad) (mean : ℝ) (u v : List ℝ)
    (hu : 3 ≤ u.length) (hv : 4 ≤ v.length) :
    (neumann_scalar_product q mean u).getD 0 0 = mean * Real.pi ∧
    (∀ k, u.length - 2 ≤ k → k < u.length →
      (neumann_scalar_product q mean u).getD k 0 = 0) ∧
    (∀ k, v.length - 4 ≤ k → k < v.length →
      (biharmonic_scalar_product q v).getD k 0 = 0) := by
  have hlu : (scalar_product_fast q u).length = u.length := scalar_product_fast_length q u
  have hlv : (scalar_product_fast q v).length = v.length := scalar_product_fast_length q v
  refine ⟨?_, fun k h1 h2 => ?_, fun k h1 h2 => ?_⟩
  · simp only [neumann_scalar_product, hlu]
    rw [getD_range_map _ _ _ (by omega), if_neg (by omega)]
    exact getD_set_self _ _ _ (by simp; omega)
  · simp only [neumann_scalar_product, hlu]
    rw [getD_range_map _ _ _ h2, if_pos h1]
  · simp only [biharmonic_scalar_product, hlv]
    rw [getD_range_map _ _ _ h2, if_pos h1]

/-- Witness for C7: a Neumann scalar product with `mean = 2` on a
three-sample array carries `2 * pi` in slot 0, and a Biharmonic scalar
product on a four-sample array has slot 3 zeroed. -/
theorem shen_scalar_product_boundary_slots_witness :
    (neumann_scalar_product Quad.GC 2 [1, 0, 0]).getD 0 0 = 2 * Real.pi ∧
    (biharmonic_scalar_product Quad.GC [1, 2, 3, 4]).getD 3 0 = 0 := by
  have h := shen_scalar_product_boundary_slots Quad.GC 2 [1, 0, 0] [1, 2, 3, 4]
      (by simp) (by simp)
  exact ⟨h.1, h.2.2 3 (by simp) (by simp)⟩

/-- **C3 counterexample** — the claim "points_and_weights with N < 2
fails with a ConfigurationError" is false: with Gauss quadrature and
`N = 1` it succeeds (numpy `chebgauss(1)` is valid), and construction
accepts a malformed domain `a >= b` without any error. -/
theorem config_validation_counterexample :
    (points_and_weights Quad.GC (1, 0) 1 false).isOk = true ∧
    (chebyshevBase_init 1 "GC" (1, 0)).isOk = true :=
  ⟨rfl, rfl⟩

/-- **C3 (amended)** — construction fails only for an invalid quadrature
rule name (the `assert quad in ('GC','GL')`); neither `N` nor the
domain is validated at construction; `points_and_weights` fails for
`N < 2` only under Gauss-Lobatto, and under Gauss only for `N = 0`,
succeeding for Gauss with `N = 1`. -/
theorem config_validation_amended (name : String) (N : ℕ) (d : ℝ × ℝ) :
    (name ≠ "GC" → name ≠ "GL" → (chebyshevBase_init N name d).isOk = false) ∧
    ((chebyshevBase_init N "GC" d).isOk = true) ∧
    ((chebyshevBase_init N "GL" d).isOk = true) ∧
    (N < 2 → (points_and_weights Quad.GL d N false).isOk = false) ∧
    (2 ≤ N → (points_and_weights Quad.GL d N false).isOk = true) ∧
    (1 ≤ N → (points_and_weights Quad.GC d N false).isOk = true) ∧
    ((points_and_weights Quad.GC d 0 false).isOk = false) := by
  refine ⟨fun h1 h2 => ?_, ?_, ?_, fun h => ?_, fun h => ?_, fun h => ?_, ?_⟩
  · rw [chebyshevBase_init, if_neg h1, if_neg h2]
    rfl
  · rw [chebyshevBase_init, if_pos rfl]
    rfl
  · rw [chebyshevBase_init, if_neg (by decide), if_pos rfl]
    rfl
  · show (if N < 2 then _ else _ : Except String (List ℝ × List ℝ)).isOk = false
    rw [if_pos h]
    rfl
  · show (if N < 2 then _ else _ : Except String (List ℝ × List ℝ)).isOk = true
    rw [if_neg (by omega)]
    rfl
  · show (if N = 0 then _ else _ : Except String (List ℝ × List ℝ)).isOk = true
    rw [if_neg (by omega)]
    rfl
  · rfl

/-- Witness for C3 (amended), at concrete inputs discharging every
hypothesis: an unknown rule name is rejected; Gauss-Lobatto rejects
`N = 1` but accepts `N = 2`; Gauss accepts `N = 1`. -/
theorem config_validation_amended_witness :
    (chebyshevBase_init 5 "XX" (-1, 1)).isOk = false ∧
    (points_and_weights Quad.GL (-1, 1) 1 false).isOk = false ∧
    (points_and_weights Quad.GL (-1, 1) 2 false).isOk = true ∧
    (points_and_weights Quad.GC (-1, 1) 1 false).isOk = true := by
  have h1 := config_validation_amended "XX" 1 (-1, 1)
  have h2 := config_validation_amended "XX" 2 (-1, 1)
  have h5 := config_validation_amended "XX" 5 (-1, 1)
  exact ⟨h5.1 (by decide) (by decide), h1.2.2.2.1 (by norm_num),
    h2.2.2.2.2.1 (by norm_num), h1.2.2.2.2.2.1 (by norm_num)⟩

/-- Chebyshev polynomials at the right endpoint: `T_n(1) = 1`. -/
theorem chebT_at_one : ∀ n : ℕ, chebT n 1 = 1
  | 0 => rfl
  | 1 => rfl
  | n + 2 => by
    rw [chebT, chebT_at_one (n + 1), chebT_at_one n]
    ring

/-- Chebyshev polynomials at the left endpoint: `T_n(-1) = (-1)^n`. -/
theorem chebT_at_neg_one : ∀ n : ℕ, chebT n (-1) = (-1) ^ n
  | 0 => by
    rw [chebT]
    norm_num
  | 1 => by
    rw [chebT]
    norm_num
  | n + 2 => by
    rw [chebT, chebT_at_neg_one (n + 1), chebT_at_neg_one n]
    ring

/-- **C8** — for `N = 6` and a Shen-Dirichlet basis with homogeneous
boundary data, every coefficient vector whose entries at positions 4
and 5 vanish evaluates to `0` (within `1e-10`) at `x = 1` and at
`x = -1` via `eval`. -/
theorem dirichlet_eval_boundary (fk : List ℝ) (h6 : fk.length = 6)
    (h4 : fk.getD 4 0 = 0) (h5 : fk.getD 5 0 = 0) :
    |dirichlet_eval 1 fk| ≤ 1e-10 ∧ |dirichlet_eval (-1) fk| ≤ 1e-10 := by
  rcases fk with _ | ⟨a, _ | ⟨b, _ | ⟨c, _ | ⟨d, _ | ⟨e, _ | ⟨f, t⟩⟩⟩⟩⟩⟩ <;>
      simp only [List.length_nil, List.length_cons] at h6 <;> try omega
  have ht : t = [] := List.eq_nil_of_length_eq_zero (by omega)
  subst ht
  simp only [List.getD_cons_succ, List.getD_cons_zero] at h4 h5
  subst h4
  subst h5
  have he1 : dirichlet_eval 1 [a, b, c, d, 0, 0] = 0 := by
    simp [dirichlet_eval, chebval, Finset.sum_range_succ, chebT_at_one,
      List.getD_cons_succ, List.getD_cons_zero]
  have he2 : dirichlet_eval (-1) [a, b, c, d, 0, 0] = 0 := by
    simp [dirichlet_eval, chebval, Finset.sum_range_succ, chebT_at_neg_one,
      List.getD_cons_succ, List.getD_cons_zero]
    ring
  rw [he1, he2]
  norm_num

/-- Witness for C8 at `fk = [1, 2, 3, 4, 0, 0]`. -/
theorem dirichlet_eval_boundary_witness :
    |dirichlet_eval 1 [1, 2, 3, 4, 0, 0]| ≤ 1e-10 ∧
      |dirichlet_eval (-1) [1, 2, 3, 4, 0, 0]| ≤ 1e-10 :=
  dirichlet_eval_boundary [1, 2, 3, 4, 0, 0] (by simp) (by simp) (by simp)

/-- Product form of the classic odd-angle cosine sum:
`(sum_(j<n) cos((2j+1)t)) * (2 sin t) = sin(2nt)`. -/
theorem sum_cos_odd_mul (n : ℕ) (t : ℝ) :
    (∑ j ∈ Finset.range n, Real.cos ((2 * (j : ℝ) + 1) * t)) * (2 * Real.sin t) =
      Real.sin (2 * (n : ℝ) * t) := by
  induction n with
  | zero => simp
  | succ m ih =>
    rw [Finset.sum_range_succ, add_mul, ih]
    have hss := Real.sin_sub_sin (2 * ((m : ℝ) + 1) * t) (2 * (m : ℝ) * t)
    have e1 : (2 * ((m : ℝ) + 1) * t - 2 * (m : ℝ) * t) / 2 = t := by ring
    have e2 : (2 * ((m : ℝ) + 1) * t + 2 * (m : ℝ) * t) / 2 = (2 * (m : ℝ) + 1) * t := by
      ring
    rw [e1, e2] at hss
    push_cast
    linarith [hss]

/-- The eight-point Chebyshev-Gauss cosine sums vanish in every nonzero
mode `k = 1, .., 15`. -/
theorem sum8_cos_eq_zero (k : ℕ) (h1 : 1 ≤ k) (h2 : k ≤ 15) :
    ∑ j ∈ Finset.range 8, Real.cos (Real.pi * (2 * (j : ℝ) + 1) * (k : ℝ) / 16) = 0 := by
  have hk1 : (1 : ℝ) ≤ (k : ℝ) := by exact_mod_cast h1
  have hk15 : (k : ℝ) ≤ 15 := by exact_mod_cast h2
  have hθpos : 0 < Real.pi * (k : ℝ) / 16 := by positivity
  have hθlt : Real.pi * (k : ℝ) / 16 < Real.pi := by
    nlinarith [Real.pi_pos]
  have hsin : Real.sin (Real.pi * (k : ℝ) / 16) ≠ 0 :=
    ne_of_gt (Real.sin_pos_of_pos_of_lt_pi hθpos hθlt)
  have hmain := sum_cos_odd_mul 8 (Real.pi * (k : ℝ) / 16)
  have hzero : Real.sin (2 * ((8 : ℕ) : ℝ) * (Real.pi * (k : ℝ) / 16)) = 0 := by
    have harg : 2 * ((8 : ℕ) : ℝ) * (Real.pi * (k : ℝ) / 16) = (k : ℝ) * Real.pi := by
      push_cast
      ring
    rw [harg]
    exact Real.sin_nat_mul_pi k
  rw [hzero] at hmain
  have hS : (∑ j ∈ Finset.range 8,
      Real.cos ((2 * (j : ℝ) + 1) * (Real.pi * (k : ℝ) / 16))) = 0 := by
    rcases mul_eq_zero.mp hmain with h | h
    · exact h
    · exact absurd (by linarith : Real.sin (Real.pi * (k : ℝ) / 16) = 0) hsin
  calc ∑ j ∈ Finset.range 8, Real.cos (Real.pi * (2 * (j : ℝ) + 1) * (k : ℝ) / 16)
      = ∑ j ∈ Finset.range 8,
          Real.cos ((2 * (j : ℝ) + 1) * (Real.pi * (k : ℝ) / 16)) := by
        refine Finset.sum_congr rfl fun j _ => ?_
        rw [show Real.pi * (2 * (j : ℝ) + 1) * (k : ℝ) / 16
            = (2 * (j : ℝ) + 1) * (Real.pi * (k : ℝ) / 16) from by ring]
    _ = 0 := hS

/-- The Chebyshev-Gauss quadrature weights for `N = 8` sum to `pi`. -/
theorem weights_sum_eq_pi : (List.replicate 8 (Real.pi / 8)).sum = Real.pi := by
  rw [List.sum_replicate]
  show (8 : ℕ) • (Real.pi / 8) = Real.pi
  rw [nsmul_eq_mul]
  push_cast
  ring

/-- Entrywise value of the plain Gauss scalar product of the all-ones
vector of length 8: `pi` in mode 0, `0` in modes 1..7. -/
theorem c9_entry (k : ℕ) (hk : k < 8) :
    (scalar_product_fast Quad.GC (List.replicate 8 1)).getD k 0 =
      if k = 0 then Real.pi else 0 := by
  have hrep : ((List.replicate 8 (1 : ℝ)).length : ℝ) = 8 := by simp
  have hdlen : (dct2 (List.replicate 8 1)).length = 8 := by
    simp [dct2]
  show ((dct2 (List.replicate 8 1)).map fun y =>
      y * (Real.pi / (2 * ((List.replicate 8 (1 : ℝ)).length : ℝ)))).getD k 0 = _
  rw [getD_map_lt _ _ _ (by rw [hdlen]; exact hk), hrep]
  have hdct : (dct2 (List.replicate 8 1)).getD k 0 =
      2 * ∑ j ∈ Finset.range 8, Real.cos (Real.pi * (2 * (j : ℝ) + 1) * (k : ℝ) / 16) := by
    rw [dct2]
    simp only [List.length_replicate]
    rw [getD_range_map _ _ _ hk]
    congr 1
    refine Finset.sum_congr rfl fun j hj => ?_
    have hj8 : j < 8 := Finset.mem_range.mp hj
    rw [List.getD_eq_getElem?_getD, List.getElem?_eq_getElem (by simpa using hj8)]
    simp only [List.getElem_replicate, Option.getD_some, one_mul]
    norm_num
  rw [hdct]
  by_cases hk0 : k = 0
  · subst hk0
    rw [if_pos rfl]
    have hcos : ∀ j ∈ Finset.range 8,
        Real.cos (Real.pi * (2 * (j : ℝ) + 1) * ((0 : ℕ) : ℝ) / 16) = 1 := by
      intro j _
      norm_num
    rw [Finset.sum_congr rfl hcos]
    simp
    ring
  · rw [if_neg hk0,
      sum8_cos_eq_zero k (by omega) (by omega)]
    ring

/-- **C9 counterexample** — for `N = 8`, Gauss quadrature and `f = ones(8)`,
mode 0 of `scalar_product(f)` is `pi` (the sum of the quadrature
weights), not `pi * (sum of weights) / (2N) = pi^2/16` as claimed. -/
theorem constant_projection_counterexample :
    (points_and_weights Quad.GC (-1, 1) 8 false).toOption.map Prod.snd =
      some (List.replicate 8 (Real.pi / 8)) ∧
    (scalar_product_fast Quad.GC (List.replicate 8 1)).getD 0 0 ≠
      Real.pi * (List.replicate 8 (Real.pi / 8)).sum / (2 * 8) := by
  constructor
  · norm_num [points_and_weights, Except.toOption]
  · have h0 := c9_entry 0 (by norm_num)
    rw [if_pos rfl] at h0
    rw [h0, weights_sum_eq_pi]
    intro h
    nlinarith [Real.pi_pos, Real.pi_lt_four]

/-- **C9 (amended)** — for `N = 8`, Gauss quadrature, plain basis and
`f = ones(8)`, `scalar_product(f)` has every coefficient `0` except
mode 0, whose value equals the sum of the quadrature weights (`pi`). -/
theorem constant_projection_amended :
    scalar_product_fast Quad.GC (List.replicate 8 1) =
      (List.replicate 8 (Real.pi / 8)).sum :: List.replicate 7 0 := by
  have hlen : (scalar_product_fast Quad.GC (List.replicate 8 1)).length = 8 :=
    scalar_product_fast_length Quad.GC (List.replicate 8 1)
  apply List.ext_getElem
  · rw [hlen]
    simp
  · intro k h1 h2
    have hk : k < 8 := by rwa [hlen] at h1
    have hentry := c9_entry k hk
    rw [List.getD_eq_getElem?_getD, List.getElem?_eq_getElem h1] at hentry
    simp only [Option.getD_some] at hentry
    rw [hentry]
    rcases Nat.eq_zero_or_pos k with hk0 | hkpos
    · subst hk0
      rw [if_pos rfl]
      show Real.pi = ((List.replicate 8 (Real.pi / 8)).sum :: List.replicate 7 0).get ⟨0, h2⟩
      rw [weights_sum_eq_pi]
      rfl
    · rw [if_neg (by omega)]
      obtain ⟨m, rfl⟩ : ∃ m, k = m + 1 := ⟨k - 1, by omega⟩
      show (0 : ℝ) = (List.replicate 7 (0 : ℝ)).get ⟨m, by simp at h2 ⊢; omega⟩
      rw [List.get_replicate]

/-- **C10** — `ShenDirichletBasis.is_scaled()` returns `False` for every
instance, including one constructed with `scaled=True`; the `scaled`
construction parameter never affects the result. -/
theorem is_scaled_always_false (N : ℕ) (q : Quad) (bc domain : ℝ × ℝ) (scaled : Bool) :
    (ShenDirichletBasis.mk N q bc domain scaled).is_scaled = false ∧
      (ShenDirichletBasis.mk N q bc domain true).is_scaled =
        (ShenDirichletBasis.mk N q bc domain false).is_scaled :=
  ⟨rfl, rfl⟩

/-- **C4** — calling `plan(shape, axis, dtype, opts)` twice with
identical arguments leaves the planned state — buffer identities and
bound-callable bindings included — unchanged after the second call, for
the plain `ChebyshevBase.plan` and for the delegating
`ShenDirichletBasis.plan`. -/
theorem plan_idempotent (s : BasisState) (t : ShenPlanState) (shape : List ℕ) (axis : ℕ)
    (isReal : Bool) (options : List (String × String)) :
    chebPlan (chebPlan s shape axis isReal options) shape axis isReal options =
      chebPlan s shape axis isReal options ∧
    shenPlan (shenPlan t shape axis isReal options) shape axis isReal options =
      shenPlan t shape axis isReal options := by
  constructor
  · obtain ⟨fw, hf, h1, h2⟩ := chebPlan_planned s shape axis isReal options
    exact chebPlan_noop _ _ _ _ _ _ hf h1 h2
  · obtain ⟨fw, hf, h1, h2⟩ := shenPlan_planned t shape axis isReal options
    exact shenPlan_noop _ _ _ _ _ _ hf h1 h2

/-- **C5** — for a row of an `N`-column Chebyshev Vandermonde matrix
(`N ≥ 2`), `ShenDirichletBasis.get_vandermonde_basis` produces the row
whose column `k` is `T_k - T_(k+2)` for `k < N-2`, whose column `N-2`
is `(T_0 + T_1)/2`, and whose column `N-1` is `(T_0 - T_1)/2`. -/
theorem dirichlet_vandermonde_columns (V : List ℝ) (hN : 2 ≤ V.length) :
    (∀ k, k < V.length - 2 →
      (get_vandermonde_basis_dirichlet V).getD k 0 = V.getD k 0 - V.getD (k + 2) 0) ∧
    (get_vandermonde_basis_dirichlet V).getD (V.length - 2) 0 =
      (V.getD 0 0 + V.getD 1 0) / 2 ∧
    (get_vandermonde_basis_dirichlet V).getD (V.length - 1) 0 =
      (V.getD 0 0 - V.getD 1 0) / 2 := by
  have hfront : (List.zipWith (fun a b => a - b)
      (V.take (V.length - 2)) (V.drop 2)).length = V.length - 2 := by
    simp [List.length_zipWith]
  refine ⟨fun k hk => ?_, ?_, ?_⟩
  · rw [get_vandermonde_basis_dirichlet,
      getD_append_left _ _ _ (by rw [hfront]; exact hk),
      getD_zipWith_sub _ _ _ (by simp; omega) (by simp; omega),
      getD_take _ _ _ hk, getD_drop _ _ _ (by omega), Nat.add_comm 2 k]
  · rw [get_vandermonde_basis_dirichlet,
      getD_append_right _ _ _ (by rw [hfront])]
    rw [hfront, Nat.sub_self]
    rfl
  · rw [get_vandermonde_basis_dirichlet,
      getD_append_right _ _ _ (by rw [hfront]; omega)]
    rw [hfront]
    have : V.length - 1 - (V.length - 2) = 1 := by omega
    rw [this]
    rfl

/-- Witness for C5 at `V = [1, 2, 3, 4]`: column 0 is `V_0 - V_2`,
column 2 is `(V_0 + V_1)/2`, column 3 is `(V_0 - V_1)/2`. -/
theorem dirichlet_vandermonde_columns_witness :
    (get_vandermonde_basis_dirichlet [1, 2, 3, 4]).getD 0 0 = 1 - 3 ∧
    (get_vandermonde_basis_dirichlet [1, 2, 3, 4]).getD 2 0 = (1 + 2) / 2 ∧
    (get_vandermonde_basis_dirichlet [1, 2, 3, 4]).getD 3 0 = (1 - 2) / 2 := by
  have h := dirichlet_vandermonde_columns [1, 2, 3, 4] (by norm_num)
  refine ⟨?_, ?_, ?_⟩
  · have h0 := h.1 0 (by norm_num)
    norm_num at h0
    norm_num [h0]
  · have h1 := h.2.1
    norm_num at h1
    norm_num [h1]
  · have h2 := h.2.2
    norm_num at h2
    norm_num [h2]

/-- Product form of the uniform-angle cosine sum:
`(sum_(k<n) cos(k t)) * (2 sin (t/2)) = sin(n t - t/2) + sin(t/2)`. -/
theorem sum_cos_mul (n : ℕ) (t : ℝ) :
    (∑ k ∈ Finset.range n, Real.cos ((k : ℝ) * t)) * (2 * Real.sin (t / 2)) =
      Real.sin ((n : ℝ) * t - t / 2) + Real.sin (t / 2) := by
  induction n with
  | zero => simp
  | succ m ih =>
    rw [Finset.sum_range_succ, add_mul, ih]
    have hss := Real.sin_sub_sin (((m : ℝ) + 1) * t - t / 2) ((m : ℝ) * t - t / 2)
    have e1 : ((((m : ℝ) + 1) * t - t / 2) - ((m : ℝ) * t - t / 2)) / 2 = t / 2 := by ring
    have e2 : ((((m : ℝ) + 1) * t - t / 2) + ((m : ℝ) * t - t / 2)) / 2 = (m : ℝ) * t := by
      ring
    rw [e1, e2] at hss
    push_cast
    linarith [hss]

/-- Dirichlet-kernel values at the Chebyshev angles: for `0 < m < 2N`,
`sum_(k<N) cos(k pi m / N)` is `0` for even `m` and `1` for odd `m`. -/
theorem dirichlet_cos_sum (N : ℕ) (m : ℕ) (h0 : 0 < m) (hlt : m < 2 * N) :
    ∑ k ∈ Finset.range N, Real.cos ((k : ℝ) * (Real.pi * (m : ℝ) / (N : ℝ))) =
      if m % 2 = 0 then 0 else 1 := by
  have hN : 0 < N := by omega
  have hNR : (0 : ℝ) < (N : ℝ) := by exact_mod_cast hN
  have hm1 : (1 : ℝ) ≤ (m : ℝ) := by exact_mod_cast h0
  have hm2 : (m : ℝ) < 2 * (N : ℝ) := by exact_mod_cast hlt
  set t := Real.pi * (m : ℝ) / (N : ℝ) with ht
  have ht2 : t / 2 = Real.pi * (m : ℝ) / (2 * (N : ℝ)) := by rw [ht]; ring
  have hpos : 0 < t / 2 := by rw [ht2]; positivity
  have hltpi : t / 2 < Real.pi := by
    rw [ht2, div_lt_iff (by positivity)]
    nlinarith [Real.pi_pos]
  have hsin : Real.sin (t / 2) ≠ 0 := ne_of_gt (Real.sin_pos_of_pos_of_lt_pi hpos hltpi)
  have hmain := sum_cos_mul N t
  have hNt : (N : ℝ) * t = (m : ℝ) * Real.pi := by
    rw [ht]
    field_simp
    ring
  rw [hNt, Real.sin_nat_mul_pi_sub] at hmain
  have h2s : 2 * Real.sin (t / 2) ≠ 0 := mul_ne_zero two_ne_zero hsin
  apply mul_right_cancel₀ h2s
  rw [hmain]
  by_cases hp : m % 2 = 0
  · rw [if_pos hp, Even.neg_one_pow (Nat.even_iff.mpr hp)]
    ring
  · rw [if_neg hp, Odd.neg_one_pow (Nat.odd_iff.mpr (by omega))]
    ring

/-- Product-to-sum for cosines. -/
theorem cos_mul_cos (a b : ℝ) :
    Real.cos a * Real.cos b = (Real.cos (a - b) + Real.cos (a + b)) / 2 := by
  rw [Real.cos_sub, Real.cos_add]
  ring

/-- Discrete orthogonality of the Chebyshev-Gauss cosine modes: the
`N`-point quadrature kernel reproduces the identity. -/
theorem gc_orthogonality (N : ℕ) (i j : ℕ) (hi : i < N) (hj : j < N) :
    1 / (N : ℝ) + 2 / (N : ℝ) * ∑ k ∈ Finset.Ico 1 N,
        Real.cos (Real.pi * (2 * (i : ℝ) + 1) * (k : ℝ) / (2 * (N : ℝ))) *
          Real.cos (Real.pi * (2 * (j : ℝ) + 1) * (k : ℝ) / (2 * (N : ℝ))) =
      if i = j then 1 else 0 := by
  have hN : 0 < N := by omega
  have hNR : (0 : ℝ) < (N : ℝ) := by exact_mod_cast hN
  have hNne : (N : ℝ) ≠ 0 := ne_of_gt hNR
  have hsplit : (∑ k ∈ Finset.Ico 1 N,
      Real.cos (Real.pi * (2 * (i : ℝ) + 1) * (k : ℝ) / (2 * (N : ℝ))) *
        Real.cos (Real.pi * (2 * (j : ℝ) + 1) * (k : ℝ) / (2 * (N : ℝ))))
      = ((∑ k ∈ Finset.Ico 1 N,
          Real.cos ((k : ℝ) * (Real.pi * ((i : ℝ) - (j : ℝ)) / (N : ℝ))))
        + ∑ k ∈ Finset.Ico 1 N,
            Real.cos ((k : ℝ) * (Real.pi * ((i : ℝ) + (j : ℝ) + 1) / (N : ℝ)))) / 2 := by
    rw [← Finset.sum_add_distrib, Finset.sum_div]
    refine Finset.sum_congr rfl fun k _ => ?_
    rw [cos_mul_cos]
    rw [show Real.pi * (2 * (i : ℝ) + 1) * (k : ℝ) / (2 * (N : ℝ))
        - Real.pi * (2 * (j : ℝ) + 1) * (k : ℝ) / (2 * (N : ℝ))
        = (k : ℝ) * (Real.pi * ((i : ℝ) - (j : ℝ)) / (N : ℝ)) from by ring]
    rw [show Real.pi * (2 * (i : ℝ) + 1) * (k : ℝ) / (2 * (N : ℝ))
        + Real.pi * (2 * (j : ℝ) + 1) * (k : ℝ) / (2 * (N : ℝ))
        = (k : ℝ) * (Real.pi * ((i : ℝ) + (j : ℝ) + 1) / (N : ℝ)) from by ring]
  have hIco : ∀ φ : ℝ, (∑ k ∈ Finset.Ico 1 N, Real.cos ((k : ℝ) * φ))
      = (∑ k ∈ Finset.range N, Real.cos ((k : ℝ) * φ)) - 1 := by
    intro φ
    have h0 := Finset.sum_eq_sum_Ico_succ_bot hN fun k : ℕ => Real.cos ((k : ℝ) * φ)
    rw [← Finset.range_eq_Ico] at h0
    rw [h0]
    norm_num
  have hm2 : (∑ k ∈ Finset.range N,
      Real.cos ((k : ℝ) * (Real.pi * ((i : ℝ) + (j : ℝ) + 1) / (N : ℝ))))
      = if (i + j + 1) % 2 = 0 then 0 else 1 := by
    rw [← dirichlet_cos_sum N (i + j + 1) (by omega) (by omega)]
    refine Finset.sum_congr rfl fun k _ => ?_
    congr 1
    push_cast
    ring
  by_cases hij : i = j
  · subst hij
    rw [if_pos rfl, hsplit]
    have hzero : (∑ k ∈ Finset.Ico 1 N,
        Real.cos ((k : ℝ) * (Real.pi * ((i : ℝ) - (i : ℝ)) / (N : ℝ)))) = (N : ℝ) - 1 := by
      have hone : ∀ k ∈ Finset.Ico 1 N,
          Real.cos ((k : ℝ) * (Real.pi * ((i : ℝ) - (i : ℝ)) / (N : ℝ))) = 1 := by
        intro k _
        norm_num
      rw [Finset.sum_congr rfl hone, Finset.sum_const, Nat.card_Ico, nsmul_eq_mul,
        mul_one, Nat.cast_sub hN]
      norm_num
    rw [hzero, hIco, hm2, if_neg (by omega : ¬(i + i + 1) % 2 = 0)]
    field_simp
    ring
  · rw [if_neg hij, hsplit, hIco, hIco, hm2]
    have hdiff : (∑ k ∈ Finset.range N,
        Real.cos ((k : ℝ) * (Real.pi * ((i : ℝ) - (j : ℝ)) / (N : ℝ))))
        = if (i + j) % 2 = 0 then 0 else 1 := by
      rcases Nat.lt_or_ge i j with hlt | hge
      · calc (∑ k ∈ Finset.range N,
            Real.cos ((k : ℝ) * (Real.pi * ((i : ℝ) - (j : ℝ)) / (N : ℝ))))
            = ∑ k ∈ Finset.range N,
              Real.cos ((k : ℝ) * (Real.pi * (((j - i : ℕ) : ℝ)) / (N : ℝ))) := by
              refine Finset.sum_congr rfl fun k _ => ?_
              rw [show (k : ℝ) * (Real.pi * ((i : ℝ) - (j : ℝ)) / (N : ℝ))
                  = -((k : ℝ) * (Real.pi * (((j - i : ℕ) : ℝ)) / (N : ℝ))) from by
                rw [Nat.cast_sub (le_of_lt hlt)]
                ring]
              rw [Real.cos_neg]
          _ = if (j - i) % 2 = 0 then 0 else 1 :=
              dirichlet_cos_sum N (j - i) (by omega) (by omega)
          _ = if (i + j) % 2 = 0 then 0 else 1 := by
              by_cases hp : (i + j) % 2 = 0
              · rw [if_pos hp, if_pos (by omega)]
              · rw [if_neg hp, if_neg (by omega)]
      · have hgt : j < i := by omega
        calc (∑ k ∈ Finset.range N,
            Real.cos ((k : ℝ) * (Real.pi * ((i : ℝ) - (j : ℝ)) / (N : ℝ))))
            = ∑ k ∈ Finset.range N,
              Real.cos ((k : ℝ) * (Real.pi * (((i - j : ℕ) : ℝ)) / (N : ℝ))) := by
              refine Finset.sum_congr rfl fun k _ => ?_
              rw [show (k : ℝ) * (Real.pi * ((i : ℝ) - (j : ℝ)) / (N : ℝ))
                  = (k : ℝ) * (Real.pi * (((i - j : ℕ) : ℝ)) / (N : ℝ)) from by
                rw [Nat.cast_sub (le_of_lt hgt)]]
          _ = if (i - j) % 2 = 0 then 0 else 1 :=
              dirichlet_cos_sum N (i - j) (by omega) (by omega)
          _ = if (i + j) % 2 = 0 then 0 else 1 := by
              by_cases hp : (i + j) % 2 = 0
              · rw [if_pos hp, if_pos (by omega)]
              · rw [if_neg hp, if_neg (by omega)]
    rw [hdiff]
    by_cases hp : (i + j) % 2 = 0
    · rw [if_pos hp, if_neg (by omega : ¬(i + j + 1) % 2 = 0)]
      field_simp
    · rw [if_neg hp, if_pos (by omega : (i + j + 1) % 2 = 0)]
      field_simp

/-- `apply_inverse_mass` preserves the array length. -/
theorem apply_inverse_mass_length (q : Quad) (a : List ℝ) :
    (apply_inverse_mass q a).length = a.length := by
  cases q <;> simp [apply_inverse_mass, scale_and_halve_first]

/-- Entries of the plain Gauss scalar product: the raw DCT-II entry
scaled by `pi/(2N)`. -/
theorem scalar_product_fast_gc_getD (f : List ℝ) (k : ℕ) (hk : k < f.length) :
    (scalar_product_fast Quad.GC f).getD k 0 =
      (2 * ∑ j ∈ Finset.range f.length, f.getD j 0 *
        Real.cos (Real.pi * (2 * (j : ℝ) + 1) * (k : ℝ) / (2 * (f.length : ℝ))))
        * (Real.pi / (2 * (f.length : ℝ))) := by
  show ((dct2 f).map fun y => y * (Real.pi / (2 * (f.length : ℝ)))).getD k 0 = _
  rw [getD_map_lt _ _ _ (by simp [dct2]; exact hk)]
  congr 1
  rw [dct2]
  exact getD_range_map _ _ _ (by simpa using hk)

/-- Entries of the forward Gauss transform
(`scalar_product` + `apply_inverse_mass`): true Chebyshev coefficients
`c_k = (1 or 2)/N * sum_j f_j cos(pi (2j+1) k / (2N))`. -/
theorem gc_coeff (f : List ℝ) (k : ℕ) (hk : k < f.length) :
    (apply_inverse_mass Quad.GC (scalar_product_fast Quad.GC f)).getD k 0 =
      (if k = 0 then 1 else 2) / (f.length : ℝ) *
        ∑ j ∈ Finset.range f.length, f.getD j 0 *
          Real.cos (Real.pi * (2 * (j : ℝ) + 1) * (k : ℝ) / (2 * (f.length : ℝ))) := by
  have hNR : (0 : ℝ) < (f.length : ℝ) := by exact_mod_cast (by omega : 0 < f.length)
  rw [apply_inverse_mass_getD Quad.GC _ k
      (by rw [scalar_product_fast_length]; exact hk)]
  rw [if_neg (by simp :
      ¬(Quad.GC = Quad.GL ∧ k = (scalar_product_fast Quad.GC f).length - 1)), mul_one]
  rw [scalar_product_fast_gc_getD f k hk]
  by_cases h0 : k = 0
  · rw [if_pos h0, if_pos h0]
    field_simp
    ring
  · rw [if_neg h0, if_neg h0, mul_one]
    field_simp
    ring

/-- Entries of the plain Gauss backward transform
(`evaluate_expansion_all`): the full cosine series
`c_0 + sum_(k=1)^(N-1) c_k cos(pi (2j+1) k / (2N))`. -/
theorem gc_backward_getD (c : List ℝ) (j : ℕ) (hj : j < c.length) :
    (evaluate_expansion_all Quad.GC c).getD j 0 =
      c.getD 0 0 + ∑ k ∈ Finset.Ico 1 c.length, c.getD k 0 *
        Real.cos (Real.pi * (2 * (j : ℝ) + 1) * (k : ℝ) / (2 * (c.length : ℝ))) := by
  show ((dct3 c).map fun y => y * 0.5 + c.getD 0 0 / 2).getD j 0 = _
  rw [getD_map_lt _ _ _ (by simp [dct3]; exact hj)]
  rw [show (dct3 c).getD j 0 = c.getD 0 0 + 2 * ∑ k ∈ Finset.Ico 1 c.length,
      c.getD k 0 * Real.cos (Real.pi * (2 * (j : ℝ) + 1) * (k : ℝ) / (2 * (c.length : ℝ)))
      from by
    rw [dct3]
    exact getD_range_map _ _ _ (by simpa using hj)]
  ring

/-- One entry of the Gauss round trip: backward after forward gives back
the sample. -/
theorem gc_roundtrip_getD (f : List ℝ) (j : ℕ) (hj : j < f.length) :
    (evaluate_expansion_all Quad.GC
      (apply_inverse_mass Quad.GC (scalar_product_fast Quad.GC f))).getD j 0 =
      f.getD j 0 := by
  have hN : 0 < f.length := by omega
  have hNR : (0 : ℝ) < (f.length : ℝ) := by exact_mod_cast hN
  set c := apply_inverse_mass Quad.GC (scalar_product_fast Quad.GC f) with hc
  have hclen : c.length = f.length := by
    rw [hc, apply_inverse_mass_length, scalar_product_fast_length]
  rw [gc_backward_getD c j (by rw [hclen]; exact hj), hclen]
  have hc0 : c.getD 0 0 = 1 / (f.length : ℝ) * ∑ i ∈ Finset.range f.length, f.getD i 0 := by
    rw [hc, gc_coeff f 0 hN, if_pos rfl]
    congr 1
    refine Finset.sum_congr rfl fun i _ => ?_
    norm_num
  have hck : ∀ k ∈ Finset.Ico 1 f.length, c.getD k 0 *
      Real.cos (Real.pi * (2 * (j : ℝ) + 1) * (k : ℝ) / (2 * (f.length : ℝ)))
      = ∑ i ∈ Finset.range f.length, f.getD i 0 * (2 / (f.length : ℝ) *
          (Real.cos (Real.pi * (2 * (i : ℝ) + 1) * (k : ℝ) / (2 * (f.length : ℝ))) *
           Real.cos (Real.pi * (2 * (j : ℝ) + 1) * (k : ℝ) / (2 * (f.length : ℝ))))) := by
    intro k hk
    have hk1 : 1 ≤ k := (Finset.mem_Ico.mp hk).1
    have hk2 : k < f.length := (Finset.mem_Ico.mp hk).2
    rw [hc, gc_coeff f k hk2, if_neg (by omega : ¬k = 0)]
    rw [Finset.mul_sum, Finset.sum_mul]
    refine Finset.sum_congr rfl fun i _ => ?_
    ring
  rw [hc0, Finset.sum_congr rfl hck, Finset.sum_comm]
  rw [Finset.mul_sum]
  rw [← Finset.sum_add_distrib]
  calc (∑ i ∈ Finset.range f.length, (1 / (f.length : ℝ) * f.getD i 0 +
        ∑ k ∈ Finset.Ico 1 f.length, f.getD i 0 * (2 / (f.length : ℝ) *
          (Real.cos (Real.pi * (2 * (i : ℝ) + 1) * (k : ℝ) / (2 * (f.length : ℝ))) *
           Real.cos (Real.pi * (2 * (j : ℝ) + 1) * (k : ℝ) / (2 * (f.length : ℝ)))))))
      = ∑ i ∈ Finset.range f.length, f.getD i 0 *
          (1 / (f.length : ℝ) + 2 / (f.length : ℝ) *
            ∑ k ∈ Finset.Ico 1 f.length,
              Real.cos (Real.pi * (2 * (i : ℝ) + 1) * (k : ℝ) / (2 * (f.length : ℝ))) *
              Real.cos (Real.pi * (2 * (j : ℝ) + 1) * (k : ℝ) / (2 * (f.length : ℝ)))) := by
        refine Finset.sum_congr rfl fun i _ => ?_
        have hpull : (∑ k ∈ Finset.Ico 1 f.length, f.getD i 0 * (2 / (f.length : ℝ) *
            (Real.cos (Real.pi * (2 * (i : ℝ) + 1) * (k : ℝ) / (2 * (f.length : ℝ))) *
             Real.cos (Real.pi * (2 * (j : ℝ) + 1) * (k : ℝ) / (2 * (f.length : ℝ))))))
            = f.getD i 0 * (2 / (f.length : ℝ) *
              ∑ k ∈ Finset.Ico 1 f.length,
                Real.cos (Real.pi * (2 * (i : ℝ) + 1) * (k : ℝ) / (2 * (f.length : ℝ))) *
                Real.cos (Real.pi * (2 * (j : ℝ) + 1) * (k : ℝ) / (2 * (f.length : ℝ)))) := by
          rw [Finset.mul_sum, Finset.mul_sum]
        rw [hpull]
        ring
    _ = ∑ i ∈ Finset.range f.length, f.getD i 0 * (if i = j then 1 else 0) := by
        refine Finset.sum_congr rfl fun i hi => ?_
        rw [gc_orthogonality f.length i j (Finset.mem_range.mp hi) hj]
    _ = ∑ i ∈ Finset.range f.length, (if i = j then f.getD i 0 else 0) := by
        refine Finset.sum_congr rfl fun i _ => ?_
        by_cases hij : i = j
        · rw [if_pos hij, if_pos hij, mul_one]
        · rw [if_neg hij, if_neg hij, mul_zero]
    _ = f.getD j 0 := by
        rw [Finset.sum_ite_eq' (Finset.range f.length) j fun i => f.getD i 0]
        rw [if_pos (Finset.mem_range.mpr hj)]

/-- Peeling both ends of a sum over `range (M + 1)`. -/
theorem sum_peel (M : ℕ) (hM : 1 ≤ M) (g : ℕ → ℝ) :
    ∑ i ∈ Finset.range (M + 1), g i = g 0 + (∑ i ∈ Finset.Ico 1 M, g i) + g M := by
  rw [Finset.sum_range_succ]
  have h0 := Finset.sum_eq_sum_Ico_succ_bot (by omega : 0 < M) g
  rw [← Finset.range_eq_Ico] at h0
  rw [h0]

/-- `cos (pi i k / M)` at `i = M` is `(-1)^k`. -/
theorem cos_pi_end (M k : ℕ) (hM : 1 ≤ M) :
    Real.cos (Real.pi * ((M : ℕ) : ℝ) * (k : ℝ) / ((M : ℕ) : ℝ)) = (-1 : ℝ) ^ k := by
  have hMne : ((M : ℕ) : ℝ) ≠ 0 := by
    exact_mod_cast (by omega : M ≠ 0)
  rw [show Real.pi * ((M : ℕ) : ℝ) * (k : ℝ) / ((M : ℕ) : ℝ) = (k : ℝ) * Real.pi from by
    field_simp
    ring]
  have := Real.cos_nat_mul_pi_sub 0 k
  simpa using this

/-- The DCT-I entry assembled as a single end-weighted cosine sum:
`(dct1 x)_k = sum_i gamma_i x_i cos(pi i k / (N-1))`. -/
theorem dct1_assembled (x : List ℝ) (hN : 2 ≤ x.length) (k : ℕ) (hk : k < x.length) :
    (dct1 x).getD k 0 = ∑ i ∈ Finset.range x.length,
      glGamma (x.length - 1) i * x.getD i 0 *
        Real.cos (Real.pi * (i : ℝ) * (k : ℝ) / ((x.length : ℝ) - 1)) := by
  obtain ⟨M, hM⟩ : ∃ M, x.length = M + 1 := ⟨x.length - 1, by omega⟩
  have hM1 : 1 ≤ M := by omega
  have hcast : ((x.length : ℝ) - 1) = ((M : ℕ) : ℝ) := by
    rw [hM]
    push_cast
    ring
  rw [dct1, getD_range_map _ _ _ hk, hcast]
  rw [show x.length - 1 = M from by omega]
  rw [hM, sum_peel M hM1]
  rw [show glGamma M 0 = 1 from if_pos (Or.inl rfl),
    show glGamma M M = 1 from if_pos (Or.inr rfl)]
  rw [show Real.cos (Real.pi * ((0 : ℕ) : ℝ) * (k : ℝ) / ((M : ℕ) : ℝ)) = 1 from by
    norm_num]
  rw [cos_pi_end M k hM1]
  rw [show (∑ i ∈ Finset.Ico 1 M, glGamma M i * x.getD i 0 *
      Real.cos (Real.pi * (i : ℝ) * (k : ℝ) / ((M : ℕ) : ℝ)))
      = 2 * ∑ i ∈ Finset.Ico 1 M, x.getD i 0 *
          Real.cos (Real.pi * (i : ℝ) * (k : ℝ) / ((M : ℕ) : ℝ)) from by
    rw [Finset.mul_sum]
    refine Finset.sum_congr rfl fun i hi => ?_
    have hi1 := (Finset.mem_Ico.mp hi).1
    have hi2 := (Finset.mem_Ico.mp hi).2
    rw [show glGamma M i = 2 from if_neg (by omega)]
    ring]
  ring

/-- `evaluate_expansion_all` preserves the array length. -/
theorem evaluate_expansion_all_length (q : Quad) (c : List ℝ) :
    (evaluate_expansion_all q c).length = c.length := by
  cases q <;>
    simp only [evaluate_expansion_all, dct3, List.length_map, List.length_range]

/-- Entries of the plain Gauss-Lobatto backward transform: the full
cosine series `sum_k c_k cos(pi k j / (N-1))`. -/
theorem gl_backward_getD (c : List ℝ) (hN : 2 ≤ c.length) (j : ℕ) (hj : j < c.length) :
    (evaluate_expansion_all Quad.GL c).getD j 0 =
      ∑ k ∈ Finset.range c.length, c.getD k 0 *
        Real.cos (Real.pi * (k : ℝ) * (j : ℝ) / ((c.length : ℝ) - 1)) := by
  obtain ⟨M, hMdef⟩ : ∃ M, c.length = M + 1 := ⟨c.length - 1, by omega⟩
  have hM1 : 1 ≤ M := by omega
  show ((List.range c.length).map fun (j : ℕ) =>
      ((dct1 c).getD j 0 * 0.5 + c.getD 0 0 / 2) +
        (if j % 2 = 0 then c.getD (c.length - 1) 0 / 2
         else -(c.getD (c.length - 1) 0 / 2))).getD j 0 = _
  rw [getD_range_map _ _ _ hj]
  have hsign : (if j % 2 = 0 then c.getD (c.length - 1) 0 / 2
      else -(c.getD (c.length - 1) 0 / 2)) = (-1 : ℝ) ^ j * c.getD (c.length - 1) 0 / 2 := by
    by_cases hp : j % 2 = 0
    · rw [if_pos hp, Even.neg_one_pow (Nat.even_iff.mpr hp)]
      ring
    · rw [if_neg hp, Odd.neg_one_pow (Nat.odd_iff.mpr (by omega))]
      ring
  rw [hsign]
  rw [dct1_assembled c hN j hj]
  simp only [hMdef, Nat.add_sub_cancel]
  push_cast
  simp only [add_sub_cancel_right]
  rw [sum_peel M hM1, sum_peel M hM1]
  rw [show glGamma M 0 = 1 from if_pos (Or.inl rfl),
    show glGamma M M = 1 from if_pos (Or.inr rfl)]
  rw [show (∑ i ∈ Finset.Ico 1 M, glGamma M i * c.getD i 0 *
      Real.cos (Real.pi * (i : ℝ) * (j : ℝ) / ((M : ℕ) : ℝ)))
      = 2 * ∑ i ∈ Finset.Ico 1 M, c.getD i 0 *
          Real.cos (Real.pi * (i : ℝ) * (j : ℝ) / ((M : ℕ) : ℝ)) from by
    rw [Finset.mul_sum]
    refine Finset.sum_congr rfl fun i hi => ?_
    have hi1 := (Finset.mem_Ico.mp hi).1
    have hi2 := (Finset.mem_Ico.mp hi).2
    rw [show glGamma M i = 2 from if_neg (by omega)]
    ring]
  rw [show Real.cos (Real.pi * ((0 : ℕ) : ℝ) * (j : ℝ) / ((M : ℕ) : ℝ)) = 1 from by
    norm_num]
  rw [show Real.cos (Real.pi * ((M : ℕ) : ℝ) * (j : ℝ) / ((M : ℕ) : ℝ)) = (-1 : ℝ) ^ j from
    cos_pi_end M j hM1]
  ring

/-- The degenerate Dirichlet sum at frequency `2M`: every cosine is 1. -/
theorem dirichlet_cos_sum_two_M (M : ℕ) (hM : 1 ≤ M) :
    ∑ k ∈ Finset.range M, Real.cos ((k : ℝ) * (Real.pi * ((2 * M : ℕ) : ℝ) / (M : ℝ))) =
      (M : ℝ) := by
  have hMne : ((M : ℕ) : ℝ) ≠ 0 := by exact_mod_cast (by omega : M ≠ 0)
  have hone : ∀ k ∈ Finset.range M,
      Real.cos ((k : ℝ) * (Real.pi * ((2 * M : ℕ) : ℝ) / (M : ℝ))) = 1 := by
    intro k _
    rw [show (k : ℝ) * (Real.pi * ((2 * M : ℕ) : ℝ) / (M : ℝ)) = (k : ℝ) * (2 * Real.pi)
        from by
      push_cast
      field_simp
      ring]
    exact Real.cos_nat_mul_two_pi k
  rw [Finset.sum_congr rfl hone, Finset.sum_const, Finset.card_range, nsmul_eq_mul,
    mul_one]

/-- Dropping the `k = 0` term (which is `cos 0 = 1`) of a cosine sum. -/
theorem cos_sum_Ico (N : ℕ) (hN : 0 < N) (t : ℝ) :
    (∑ k ∈ Finset.Ico 1 N, Real.cos ((k : ℝ) * t))
      = (∑ k ∈ Finset.range N, Real.cos ((k : ℝ) * t)) - 1 := by
  have h0 := Finset.sum_eq_sum_Ico_succ_bot hN fun k : ℕ => Real.cos ((k : ℝ) * t)
  rw [← Finset.range_eq_Ico] at h0
  rw [h0]
  norm_num

/-- Discrete orthogonality of the Chebyshev-Gauss-Lobatto cosine modes
(`M = N - 1`): the end-halved quadrature kernel reproduces the
identity. -/
theorem gl_orthogonality (M : ℕ) (hM : 1 ≤ M) (i j : ℕ) (hi : i ≤ M) (hj : j ≤ M) :
    glGamma M i / (M : ℝ) * ∑ k ∈ Finset.range (M + 1),
      glWeight M k * (Real.cos (Real.pi * (i : ℝ) * (k : ℝ) / (M : ℝ)) *
        Real.cos (Real.pi * (j : ℝ) * (k : ℝ) / (M : ℝ)))
      = if i = j then 1 else 0 := by
  have hMR : (0 : ℝ) < (M : ℝ) := by exact_mod_cast (by omega : 0 < M)
  have hMne : (M : ℝ) ≠ 0 := ne_of_gt hMR
  rw [sum_peel M hM]
  rw [show glWeight M 0 = 1 / 2 from by
    rw [glWeight, if_pos rfl, if_neg (by omega)]
    norm_num]
  rw [show glWeight M M = 1 / 2 from by
    rw [glWeight, if_neg (by omega), if_pos rfl]
    norm_num]
  rw [show Real.cos (Real.pi * (i : ℝ) * ((0 : ℕ) : ℝ) / (M : ℝ)) = 1 from by norm_num]
  rw [show Real.cos (Real.pi * (j : ℝ) * ((0 : ℕ) : ℝ) / (M : ℝ)) = 1 from by norm_num]
  rw [show Real.cos (Real.pi * (i : ℝ) * ((M : ℕ) : ℝ) / (M : ℝ)) = (-1 : ℝ) ^ i from by
    rw [show Real.pi * (i : ℝ) * ((M : ℕ) : ℝ) / (M : ℝ)
        = Real.pi * ((M : ℕ) : ℝ) * (i : ℝ) / (M : ℝ) from by ring]
    exact cos_pi_end M i hM]
  rw [show Real.cos (Real.pi * (j : ℝ) * ((M : ℕ) : ℝ) / (M : ℝ)) = (-1 : ℝ) ^ j from by
    rw [show Real.pi * (j : ℝ) * ((M : ℕ) : ℝ) / (M : ℝ)
        = Real.pi * ((M : ℕ) : ℝ) * (j : ℝ) / (M : ℝ) from by ring]
    exact cos_pi_end M j hM]
  rw [show (∑ k ∈ Finset.Ico 1 M, glWeight M k *
      (Real.cos (Real.pi * (i : ℝ) * (k : ℝ) / (M : ℝ)) *
       Real.cos (Real.pi * (j : ℝ) * (k : ℝ) / (M : ℝ))))
      = (((∑ k ∈ Finset.range M,
          Real.cos ((k : ℝ) * (Real.pi * ((i : ℝ) - (j : ℝ)) / (M : ℝ)))) - 1)
        + (((∑ k ∈ Finset.range M,
            Real.cos ((k : ℝ) * (Real.pi * ((i : ℝ) + (j : ℝ)) / (M : ℝ)))) - 1))) / 2 from by
    rw [← cos_sum_Ico M (by omega) (Real.pi * ((i : ℝ) - (j : ℝ)) / (M : ℝ)),
      ← cos_sum_Ico M (by omega) (Real.pi * ((i : ℝ) + (j : ℝ)) / (M : ℝ))]
    rw [← Finset.sum_add_distrib, Finset.sum_div]
    refine Finset.sum_congr rfl fun k hk => ?_
    have hk1 := (Finset.mem_Ico.mp hk).1
    have hk2 := (Finset.mem_Ico.mp hk).2
    rw [show glWeight M k = 1 from by
      rw [glWeight, if_neg (by omega), if_neg (by omega)]
      norm_num]
    rw [one_mul, cos_mul_cos]
    rw [show Real.pi * (i : ℝ) * (k : ℝ) / (M : ℝ) - Real.pi * (j : ℝ) * (k : ℝ) / (M : ℝ)
        = (k : ℝ) * (Real.pi * ((i : ℝ) - (j : ℝ)) / (M : ℝ)) from by ring]
    rw [show Real.pi * (i : ℝ) * (k : ℝ) / (M : ℝ) + Real.pi * (j : ℝ) * (k : ℝ) / (M : ℝ)
        = (k : ℝ) * (Real.pi * ((i : ℝ) + (j : ℝ)) / (M : ℝ)) from by ring]]
  by_cases hij : i = j
  · subst hij
    rw [if_pos rfl]
    rw [show (∑ k ∈ Finset.range M,
        Real.cos ((k : ℝ) * (Real.pi * ((i : ℝ) - (i : ℝ)) / (M : ℝ)))) = (M : ℝ) from by
      have hone : ∀ k ∈ Finset.range M,
          Real.cos ((k : ℝ) * (Real.pi * ((i : ℝ) - (i : ℝ)) / (M : ℝ))) = 1 := by
        intro k _
        norm_num
      rw [Finset.sum_congr rfl hone, Finset.sum_const, Finset.card_range, nsmul_eq_mul,
        mul_one]]
    rcases Nat.eq_zero_or_pos i with h0 | hpos
    · subst h0
      rw [show (∑ k ∈ Finset.range M, Real.cos ((k : ℝ) *
          (Real.pi * (((0 : ℕ) : ℝ) + ((0 : ℕ) : ℝ)) / (M : ℝ)))) = (M : ℝ) from by
        have hone : ∀ k ∈ Finset.range M, Real.cos ((k : ℝ) *
            (Real.pi * (((0 : ℕ) : ℝ) + ((0 : ℕ) : ℝ)) / (M : ℝ))) = 1 := by
          intro k _
          norm_num
        rw [Finset.sum_congr rfl hone, Finset.sum_const, Finset.card_range, nsmul_eq_mul,
          mul_one]]
      rw [show glGamma M 0 = 1 from if_pos (Or.inl rfl)]
      norm_num
      field_simp
      ring
    · rcases Nat.lt_or_ge i M with hiM | hgeM
      · rw [show (∑ k ∈ Finset.range M, Real.cos ((k : ℝ) *
            (Real.pi * ((i : ℝ) + (i : ℝ)) / (M : ℝ)))) = 0 from by
          have hc := dirichlet_cos_sum M (i + i) (by omega) (by omega)
          rw [if_pos (by omega : (i + i) % 2 = 0)] at hc
          rw [← hc]
          refine Finset.sum_congr rfl fun k _ => ?_
          rw [show (Real.pi * ((i : ℝ) + (i : ℝ)) / (M : ℝ))
              = (Real.pi * (((i + i : ℕ)) : ℝ) / (M : ℝ)) from by
            push_cast
            ring]]
        rw [show glGamma M i = 2 from if_neg (by omega)]
        rw [show ((-1 : ℝ)) ^ i * ((-1 : ℝ)) ^ i = 1 from by
          rw [← pow_add]
          exact Even.neg_one_pow ⟨i, by omega⟩]
        field_simp
      · have hiM : i = M := by omega
        rw [hiM]
        rw [show (∑ k ∈ Finset.range M, Real.cos ((k : ℝ) *
            (Real.pi * ((M : ℝ) + (M : ℝ)) / (M : ℝ)))) = (M : ℝ) from by
          calc (∑ k ∈ Finset.range M, Real.cos ((k : ℝ) *
              (Real.pi * ((M : ℝ) + (M : ℝ)) / (M : ℝ))))
              = ∑ k ∈ Finset.range M, Real.cos ((k : ℝ) *
                  (Real.pi * (((2 * M : ℕ)) : ℝ) / (M : ℝ))) := by
                refine Finset.sum_congr rfl fun k _ => ?_
                rw [show (Real.pi * ((M : ℝ) + (M : ℝ)) / (M : ℝ))
                    = (Real.pi * (((2 * M : ℕ)) : ℝ) / (M : ℝ)) from by
                  push_cast
                  ring]
            _ = (M : ℝ) := dirichlet_cos_sum_two_M M hM]
        rw [show glGamma M M = 1 from if_pos (Or.inr rfl)]
        rw [show ((-1 : ℝ)) ^ M * ((-1 : ℝ)) ^ M = 1 from by
          rw [← pow_add]
          exact Even.neg_one_pow ⟨M, by omega⟩]
        field_simp
        ring
  · rw [if_neg hij]
    have hD1 : (∑ k ∈ Finset.range M,
        Real.cos ((k : ℝ) * (Real.pi * ((i : ℝ) - (j : ℝ)) / (M : ℝ))))
        = if (i + j) % 2 = 0 then 0 else 1 := by
      rcases Nat.lt_or_ge i j with hlt | hge2
      · calc (∑ k ∈ Finset.range M,
            Real.cos ((k : ℝ) * (Real.pi * ((i : ℝ) - (j : ℝ)) / (M : ℝ))))
            = ∑ k ∈ Finset.range M,
              Real.cos ((k : ℝ) * (Real.pi * (((j - i : ℕ) : ℝ)) / (M : ℝ))) := by
              refine Finset.sum_congr rfl fun k _ => ?_
              rw [show (k : ℝ) * (Real.pi * ((i : ℝ) - (j : ℝ)) / (M : ℝ))
                  = -((k : ℝ) * (Real.pi * (((j - i : ℕ) : ℝ)) / (M : ℝ))) from by
                rw [Nat.cast_sub (le_of_lt hlt)]
                ring]
              rw [Real.cos_neg]
          _ = if (j - i) % 2 = 0 then 0 else 1 :=
              dirichlet_cos_sum M (j - i) (by omega) (by omega)
          _ = if (i + j) % 2 = 0 then 0 else 1 := by
              by_cases hp : (i + j) % 2 = 0
              · rw [if_pos hp, if_pos (by omega)]
              · rw [if_neg hp, if_neg (by omega)]
      · have hgt : j < i := by omega
        calc (∑ k ∈ Finset.range M,
            Real.cos ((k : ℝ) * (Real.pi * ((i : ℝ) - (j : ℝ)) / (M : ℝ))))
            = ∑ k ∈ Finset.range M,
              Real.cos ((k : ℝ) * (Real.pi * (((i - j : ℕ) : ℝ)) / (M : ℝ))) := by
              refine Finset.sum_congr rfl fun k _ => ?_
              rw [show (k : ℝ) * (Real.pi * ((i : ℝ) - (j : ℝ)) / (M : ℝ))
                  = (k : ℝ) * (Real.pi * (((i - j : ℕ) : ℝ)) / (M : ℝ)) from by
                rw [Nat.cast_sub (le_of_lt hgt)]]
          _ = if (i - j) % 2 = 0 then 0 else 1 :=
              dirichlet_cos_sum M (i - j) (by omega) (by omega)
          _ = if (i + j) % 2 = 0 then 0 else 1 := by
              by_cases hp : (i + j) % 2 = 0
              · rw [if_pos hp, if_pos (by omega)]
              · rw [if_neg hp, if_neg (by omega)]
    have hD2 : (∑ k ∈ Finset.range M,
        Real.cos ((k : ℝ) * (Real.pi * ((i : ℝ) + (j : ℝ)) / (M : ℝ))))
        = if (i + j) % 2 = 0 then 0 else 1 := by
      rw [← dirichlet_cos_sum M (i + j) (by omega) (by omega)]
      refine Finset.sum_congr rfl fun k _ => ?_
      rw [show (Real.pi * ((i : ℝ) + (j : ℝ)) / (M : ℝ))
          = (Real.pi * (((i + j : ℕ)) : ℝ) / (M : ℝ)) from by
        push_cast
        ring]
    rw [hD1, hD2, show ((-1 : ℝ)) ^ i * ((-1 : ℝ)) ^ j = ((-1 : ℝ)) ^ (i + j) from
      (pow_add (-1 : ℝ) i j).symm]
    by_cases hp : (i + j) % 2 = 0
    · rw [if_pos hp, Even.neg_one_pow (Nat.even_iff.mpr hp)]
      ring
    · rw [if_neg hp, Odd.neg_one_pow (Nat.odd_iff.mpr (by omega))]
      ring

/-- Entries of the plain Gauss-Lobatto scalar product: the raw DCT-I
entry scaled by `pi/(2(N-1))`. -/
theorem scalar_product_fast_gl_getD (f : List ℝ) (k : ℕ) (hk : k < f.length) :
    (scalar_product_fast Quad.GL f).getD k 0 =
      (dct1 f).getD k 0 * (Real.pi / (2 * ((f.length : ℝ) - 1))) := by
  show ((dct1 f).map fun y => y * (Real.pi / (2 * ((f.length : ℝ) - 1)))).getD k 0 = _
  rw [getD_map_lt _ _ _ (by simp [dct1]; exact hk)]

/-- Entries of the forward Gauss-Lobatto transform
(`scalar_product` + `apply_inverse_mass`): the end-halved Chebyshev
coefficients. -/
theorem gl_coeff (f : List ℝ) (hN : 2 ≤ f.length) (k : ℕ) (hk : k < f.length) :
    (apply_inverse_mass Quad.GL (scalar_product_fast Quad.GL f)).getD k 0 =
      glWeight (f.length - 1) k / ((f.length : ℝ) - 1) *
        ∑ i ∈ Finset.range f.length, glGamma (f.length - 1) i * f.getD i 0 *
          Real.cos (Real.pi * (i : ℝ) * (k : ℝ) / ((f.length : ℝ) - 1)) := by
  have hlen := scalar_product_fast_length Quad.GL f
  have h2 : (2 : ℝ) ≤ (f.length : ℝ) := by exact_mod_cast hN
  have hMne : ((f.length : ℝ) - 1) ≠ 0 := by
    intro h
    linarith
  rw [apply_inverse_mass_getD Quad.GL _ k (by rw [hlen]; exact hk), hlen]
  rw [scalar_product_fast_gl_getD f k hk, dct1_assembled f hN k hk]
  rw [show (if Quad.GL = Quad.GL ∧ k = f.length - 1 then (1 : ℝ) / 2 else 1)
      = (if k = f.length - 1 then (1 : ℝ) / 2 else 1) from by
    by_cases h : k = f.length - 1 <;> simp [h]]
  rw [glWeight]
  by_cases h0 : k = 0
  · rw [if_pos h0]
    by_cases hL : k = f.length - 1
    · rw [if_pos hL]
      field_simp
      ring
    · rw [if_neg hL]
      field_simp
      ring
  · rw [if_neg h0]
    by_cases hL : k = f.length - 1
    · rw [if_pos hL]
      field_simp
      ring
    · rw [if_neg hL]
      field_simp
      ring

/-- One entry of the Gauss-Lobatto round trip: backward after forward
gives back the sample. -/
theorem gl_roundtrip_getD (f : List ℝ) (hN : 2 ≤ f.length) (j : ℕ) (hj : j < f.length) :
    (evaluate_expansion_all Quad.GL
      (apply_inverse_mass Quad.GL (scalar_product_fast Quad.GL f))).getD j 0 =
      f.getD j 0 := by
  obtain ⟨M, hMdef⟩ : ∃ M, f.length = M + 1 := ⟨f.length - 1, by omega⟩
  have hM1 : 1 ≤ M := by omega
  set c := apply_inverse_mass Quad.GL (scalar_product_fast Quad.GL f) with hc
  have hclen : c.length = f.length := by
    rw [hc, apply_inverse_mass_length, scalar_product_fast_length]
  rw [gl_backward_getD c (by rw [hclen]; exact hN) j (by rw [hclen]; exact hj), hclen]
  have hcast : ((f.length : ℝ) - 1) = ((M : ℕ) : ℝ) := by
    rw [hMdef]
    push_cast
    ring
  have hMnat : f.length - 1 = M := by omega
  have hck : ∀ k ∈ Finset.range f.length, c.getD k 0 *
      Real.cos (Real.pi * (k : ℝ) * (j : ℝ) / ((f.length : ℝ) - 1))
      = ∑ i ∈ Finset.range f.length, f.getD i 0 * (glGamma M i / ((M : ℕ) : ℝ) *
          (glWeight M k * (Real.cos (Real.pi * (i : ℝ) * (k : ℝ) / ((M : ℕ) : ℝ)) *
            Real.cos (Real.pi * (j : ℝ) * (k : ℝ) / ((M : ℕ) : ℝ))))) := by
    intro k hk
    have hk2 : k < f.length := Finset.mem_range.mp hk
    rw [hc, gl_coeff f hN k hk2, hMnat, hcast]
    rw [show Real.pi * (k : ℝ) * (j : ℝ) / ((M : ℕ) : ℝ)
        = Real.pi * (j : ℝ) * (k : ℝ) / ((M : ℕ) : ℝ) from by ring]
    rw [Finset.mul_sum, Finset.sum_mul]
    refine Finset.sum_congr rfl fun i _ => ?_
    ring
  rw [Finset.sum_congr rfl hck, Finset.sum_comm]
  have hpull : ∀ i ∈ Finset.range f.length,
      (∑ k ∈ Finset.range f.length, f.getD i 0 * (glGamma M i / ((M : ℕ) : ℝ) *
        (glWeight M k * (Real.cos (Real.pi * (i : ℝ) * (k : ℝ) / ((M : ℕ) : ℝ)) *
          Real.cos (Real.pi * (j : ℝ) * (k : ℝ) / ((M : ℕ) : ℝ))))))
      = f.getD i 0 * (glGamma M i / ((M : ℕ) : ℝ) *
          ∑ k ∈ Finset.range f.length, glWeight M k *
            (Real.cos (Real.pi * (i : ℝ) * (k : ℝ) / ((M : ℕ) : ℝ)) *
             Real.cos (Real.pi * (j : ℝ) * (k : ℝ) / ((M : ℕ) : ℝ)))) := by
    intro i _
    rw [Finset.mul_sum, Finset.mul_sum]
  rw [Finset.sum_congr rfl hpull, hMdef]
  have horth : ∀ i ∈ Finset.range (M + 1),
      f.getD i 0 * (glGamma M i / ((M : ℕ) : ℝ) *
        ∑ k ∈ Finset.range (M + 1), glWeight M k *
          (Real.cos (Real.pi * (i : ℝ) * (k : ℝ) / ((M : ℕ) : ℝ)) *
           Real.cos (Real.pi * (j : ℝ) * (k : ℝ) / ((M : ℕ) : ℝ))))
      = if i = j then f.getD i 0 else 0 := by
    intro i hi
    have hiM : i ≤ M := by
      have := Finset.mem_range.mp hi
      omega
    have hjM : j ≤ M := by omega
    rw [gl_orthogonality M hM1 i j hiM hjM]
    by_cases hij : i = j
    · rw [if_pos hij, if_pos hij, mul_one]
    · rw [if_neg hij, if_neg hij, mul_zero]
  rw [Finset.sum_congr rfl horth]
  rw [Finset.sum_ite_eq' (Finset.range (M + 1)) j fun i => f.getD i 0]
  rw [if_pos (Finset.mem_range.mpr (by omega))]

/-- **C1** — for every `N >= 2`, both quadrature rules (Gauss and
Gauss-Lobatto), and every real grid array `f` of length `N`, the
forward transform (`scalar_product` followed by `apply_inverse_mass`)
composed with the backward transform (`evaluate_expansion_all`)
reconstructs `f` exactly in real arithmetic — in particular within the
claimed `1e-10` relative tolerance. -/
theorem chebyshev_roundtrip (q : Quad) (f : List ℝ) (hN : 2 ≤ f.length) :
    evaluate_expansion_all q (apply_inverse_mass q (scalar_product_fast q f)) = f ∧
    ∀ j, j < f.length →
      |(evaluate_expansion_all q
          (apply_inverse_mass q (scalar_product_fast q f))).getD j 0 - f.getD j 0|
        ≤ 1e-10 * |f.getD j 0| := by
  have hlen : (evaluate_expansion_all q
      (apply_inverse_mass q (scalar_product_fast q f))).length = f.length := by
    rw [evaluate_expansion_all_length, apply_inverse_mass_length, scalar_product_fast_length]
  have hentry : ∀ j, j < f.length →
      (evaluate_expansion_all q
        (apply_inverse_mass q (scalar_product_fast q f))).getD j 0 = f.getD j 0 := by
    intro j hj
    cases q
    · exact gc_roundtrip_getD f j hj
    · exact gl_roundtrip_getD f hN j hj
  constructor
  · apply List.ext_getElem
    · rw [hlen]
    · intro j h1 h2
      have hj : j < f.length := by rwa [hlen] at h1
      have hgj := hentry j hj
      rw [List.getD_eq_getElem?_getD, List.getElem?_eq_getElem h1,
        List.getD_eq_getElem?_getD, List.getElem?_eq_getElem h2] at hgj
      simpa using hgj
  · intro j hj
    rw [hentry j hj, sub_self, abs_zero]
    positivity

/-- Witness for C1 at `f = [1, 2]`, for both quadrature rules. -/
theorem chebyshev_roundtrip_witness :
    evaluate_expansion_all Quad.GC
        (apply_inverse_mass Quad.GC (scalar_product_fast Quad.GC [1, 2])) = [1, 2] ∧
      evaluate_expansion_all Quad.GL
        (apply_inverse_mass Quad.GL (scalar_product_fast Quad.GL [1, 2])) = [1, 2] :=
  ⟨(chebyshev_roundtrip Quad.GC [1, 2] (by norm_num)).1,
   (chebyshev_roundtrip Quad.GL [1, 2] (by norm_num)).1⟩

end
